import Mathlib

/-!
Verification of the jettison binary serialization engine.

The definitions below are a shallow embedding of `src/src/jettison.js`
(the current revision) and `src/unnamed/part_000` (an earlier revision of
the same module, embedded under the `P0` prefix where the two differ).
Byte buffers are `List Nat` with every entry a byte value; JavaScript
numbers that flow through the 32-bit bitwise operators are modelled as
`Int` together with explicit ToUint32/ToInt32 conversions.
-/

namespace Jettison

/-- JS ToUint32: reduce an integral JS number to its unsigned 32-bit pattern. -/
def toUint32 (x : Int) : Nat := (x % (4294967296 : Int)).toNat

/-- Reinterpret an unsigned 32-bit pattern as a signed JS int32 result. -/
def ofUint32 (n : Nat) : Int :=
  if n < 2147483648 then (n : Int) else (n : Int) - 4294967296

/-- JS `a & b` (32-bit signed bitwise and). -/
def jsAnd (a b : Int) : Int := ofUint32 ((toUint32 a) &&& (toUint32 b))

/-- JS `a | b` (32-bit signed bitwise or). -/
def jsOr (a b : Int) : Int := ofUint32 ((toUint32 a) ||| (toUint32 b))

/-- JS `a << s` (32-bit signed left shift; shift count is taken mod 32). -/
def jsShl (a : Int) (s : Nat) : Int :=
  ofUint32 ((toUint32 a) <<< (s % 32) % 4294967296)

/-- JS `a >> s` (sign-propagating right shift = floor division of the int32
value by a power of two; shift count is taken mod 32). -/
def jsShr (a : Int) (s : Nat) : Int :=
  (ofUint32 (toUint32 a)) / ((2 : Int) ^ (s % 32))

/-- IntegerCodec.set clamping: values below minValue become minValue, above
maxValue become maxValue. -/
def clampInt (lo hi v : Int) : Int := if v < lo then lo else if v > hi then hi else v

/-- IntegerCodec minValue for a width in bytes and signedness. -/
def intMinValue (byteLength : Nat) (signed : Bool) : Int :=
  if signed then -((2 : Int) ^ (8 * byteLength - 1)) else 0

/-- IntegerCodec maxValue for a width in bytes and signedness. -/
def intMaxValue (byteLength : Nat) (signed : Bool) : Int :=
  if signed then (2 : Int) ^ (8 * byteLength - 1) - 1 else (2 : Int) ^ (8 * byteLength) - 1

/-- Little-endian byte decomposition of a natural number, least significant
byte first (the byte-at-offset layout used by DataView setters). -/
def bytesLE : Nat → Nat → List Nat
  | 0, _ => []
  | w + 1, n => n % 256 :: bytesLE w (n / 256)

/-- Recompose a little-endian byte list into a natural number. -/
def natFromLE : List Nat → Nat
  | [] => 0
  | b :: rest => b + 256 * natFromLE rest

/-- IntegerCodec.set for a width in bytes: clamp to [minValue, maxValue],
then store the two's-complement byte pattern in the requested byte order
(DataView setters write big-endian unless littleEndian is passed). -/
def intSet (w : Nat) (signed : Bool) (little : Bool) (v : Int) : List Nat :=
  let c := clampInt (intMinValue w signed) (intMaxValue w signed) v
  let rep := (c % ((2 : Int) ^ (8 * w))).toNat
  let bs := bytesLE w rep
  if little then bs else bs.reverse

/-- IntegerCodec.get (DataView getIntN/getUintN): read the width's bytes in
the requested byte order and interpret as two's complement when signed.
Reading past the end of the buffer is a fatal out-of-range error (none). -/
def intGet (w : Nat) (signed : Bool) (little : Bool) (bytes : List Nat) :
    Option (Int × List Nat) :=
  if w ≤ bytes.length then
    let taken := bytes.take w
    let n := natFromLE (if little then taken else taken.reverse)
    let v : Int := if signed ∧ 2 ^ (8 * w - 1) ≤ n then (n : Int) - 2 ^ (8 * w) else (n : Int)
    some (v, bytes.drop w)
  else none

/-- The shared `_codecs.uint8` write used internally by the dynamic codecs:
clamp to [0, 255] and store one byte. -/
def uint8SetByte (little : Bool) (v : Int) : List Nat := intSet 1 false little v

/-- VariableLengthUnsignedIntegerCodec.getByteLength.
Modelled from the spec: `polyfill.log2` (polyfill.js is not under src/) is
the exact binary logarithm; `Math.floor(log2 v) + 1` is `Nat.log2 v + 1`
for positive v. At v = 0 the JS chain floor(-Infinity)+1, ceil(-Infinity/7),
max(-Infinity, 1) collapses to 1, modelled by the explicit zero branch. -/
def varintGetByteLength (value : Nat) : Nat :=
  if value = 0 then 1 else max ((Nat.log2 value + 1 + 6) / 7) 1

/-- VariableLengthUnsignedIntegerCodec.set loop: emit 7 data bits per byte,
least significant group first, setting the high continuation bit while the
shifted remainder is nonzero.  The remainder update uses the JS 32-bit
signed shift, faithfully modelled by `jsShr`. -/
def varintSetLoop (little : Bool) (remainder : Int) : List Nat :=
  if h : 0 < remainder then
    uint8SetByte little
      (if jsShr remainder 7 ≠ 0 then jsOr (jsAnd remainder 127) 128
       else jsAnd remainder 127) ++
      varintSetLoop little (jsShr remainder 7)
  else []
termination_by remainder.toNat
decreasing_by
  show (jsShr remainder 7).toNat < remainder.toNat
  have h32 : (0 : Int) < 4294967296 := by norm_num
  have hmod : remainder % 4294967296 ≤ remainder := by
    have hdiv : 0 ≤ remainder / 4294967296 := Int.ediv_nonneg h.le (by norm_num)
    have := Int.emod_def remainder 4294967296
    nlinarith [this]
  have hof : ofUint32 (toUint32 remainder) ≤ remainder := by
    unfold ofUint32 toUint32
    have hnn : 0 ≤ remainder % 4294967296 := Int.emod_nonneg remainder (by norm_num)
    rw [Int.toNat_of_nonneg hnn]
    split <;> omega
  unfold jsShr
  rcases le_or_lt (ofUint32 (toUint32 remainder)) 0 with ht | ht
  · have hz : ofUint32 (toUint32 remainder) / ((2 : Int) ^ (7 % 32)) ≤
        0 / ((2 : Int) ^ (7 % 32)) := Int.ediv_le_ediv (by norm_num) ht
    rw [Int.zero_ediv] at hz
    omega
  · have hlt : ofUint32 (toUint32 remainder) / ((2 : Int) ^ (7 % 32)) <
        ofUint32 (toUint32 remainder) := by
      rw [Int.ediv_lt_iff_lt_mul (by norm_num)]
      norm_num
      linarith
    have hnn : 0 ≤ ofUint32 (toUint32 remainder) / ((2 : Int) ^ (7 % 32)) :=
      Int.ediv_nonneg ht.le (by norm_num)
    omega

/-- VariableLengthUnsignedIntegerCodec.set: a falsy (zero) value writes a
single zero byte, otherwise the loop runs. -/
def varintSet (little : Bool) (value : Int) : List Nat :=
  if value = 0 then uint8SetByte little 0 else varintSetLoop little value

/-- VariableLengthUnsignedIntegerCodec.get loop: read bytes until one has
the high bit clear, accumulating 7-bit groups with `acc |= (byte & 127) <<
(i * 7)` (all JS 32-bit signed operations).  Running out of bytes is a
fatal out-of-range error. -/
def varintGetLoop : List Nat → Int → Nat → Option (Int × List Nat)
  | [], _, _ => none
  | b :: rest, acc, i =>
    let acc2 := jsOr acc (jsShl (jsAnd (b : Int) 127) (i * 7))
    if jsAnd (b : Int) 128 ≠ 0 then varintGetLoop rest acc2 (i + 1)
    else some (acc2, rest)

/-- VariableLengthUnsignedIntegerCodec.get. -/
def varintGet (bytes : List Nat) : Option (Int × List Nat) := varintGetLoop bytes 0 0

/-- Reference form of the varint byte sequence of a positive value: base-128
digits, least significant first, continuation bit on all but the last. -/
def varintDigits : Nat → List Nat
  | 0 => []
  | n + 1 =>
    if (n + 1) / 128 = 0 then [(n + 1) % 128]
    else ((n + 1) % 128 + 128) :: varintDigits ((n + 1) / 128)
termination_by n => n
decreasing_by
  exact Nat.lt_of_lt_of_le (Nat.div_lt_self (Nat.succ_pos n) (by norm_num)) (Nat.le_refl _)

/-- Value of a bit-flag list interpreted least-significant-bit first
(reference form used to describe the bytes `BooleanArrayCodec.set` emits). -/
def byteOf : List Bool → Nat
  | [] => 0
  | b :: bs => (if b then 1 else 0) + 2 * byteOf bs

/-- BooleanArrayCodec.set bit-packing loop: `byte |= (values[i] ? 1 : 0) <<
bit`, flushing a byte whenever 8 bits have been packed and once more at the
end if any bits are pending.  All intermediate `byte` values stay below 256,
so the `_codecs.uint8` writes store them unchanged. -/
def packLoop : List Bool → Nat → Nat → List Nat
  | [], byte, bit => if 0 < bit then [byte] else []
  | v :: rest, byte, bit =>
    if bit = 8 then byte :: packLoop (v :: rest) 0 0
    else packLoop rest (byte ||| ((if v then 1 else 0) <<< bit)) (bit + 1)
termination_by l _ bit => 2 * l.length + (if bit = 8 then 1 else 0)
decreasing_by
  · simp_all only [List.length_cons]
    simp_all
  · simp_all only [List.length_cons]
    split <;> omega

/-- BooleanArrayCodec.set: variable-length count, then the packed bits. -/
def booleanArraySet (little : Bool) (values : List Bool) : List Nat :=
  varintSet little (values.length : Int) ++ packLoop values 0 0

/-- BooleanArrayCodec.getByteLength: count prefix plus
`Math.ceil(length / 8)` bytes of flags (uint8.byteLength = 1). -/
def booleanArrayGetByteLength (values : List Bool) : Nat :=
  varintGetByteLength values.length + (values.length + 7) / 8

/-- BooleanArrayCodec.get inner loops: read `Math.ceil(length / 8)` bytes,
extracting `(byte >> bit) & 1` flags LSB-first while fewer than `length`
values have been produced (`Nat.testBit` is exactly that extraction).
Running out of bytes is a fatal out-of-range error. -/
def boolArrayReadBits : Nat → List Nat → Option (List Bool × List Nat)
  | 0, bytes => some ([], bytes)
  | _ + 1, [] => none
  | n + 1, byte :: rest =>
    match boolArrayReadBits (n + 1 - min 8 (n + 1)) rest with
    | some (vs, r) =>
      some ((List.range (min 8 (n + 1))).map (fun bit => Nat.testBit byte bit) ++ vs, r)
    | none => none
termination_by n _ => n
decreasing_by
  omega

/-- BooleanArrayCodec.get: read the count, then the packed flag bytes.  A
non-positive count (possible for corrupt input) reads no flag bytes and
yields an empty list, as `Math.ceil` of a non-positive count runs no loop
iterations. -/
def booleanArrayGet (bytes : List Nat) : Option (List Bool × List Nat) :=
  match varintGet bytes with
  | some (len, rest) => boolArrayReadBits len.toNat rest
  | none => none

/-- UTF-8 encoding of one Unicode code point.  Modelled from the spec: the
`utf8` npm package (an external collaborator, not repository code) performs
standard UTF-8 transcoding. -/
def utf8EncodeChar (c : Nat) : List Nat :=
  if c < 128 then [c]
  else if c < 2048 then [192 + c / 64, 128 + c % 64]
  else if c < 65536 then [224 + c / 4096, 128 + c / 64 % 64, 128 + c % 64]
  else [240 + c / 262144, 128 + c / 4096 % 64, 128 + c / 64 % 64, 128 + c % 64]

/-- UTF-8 byte sequence of a string given as its list of code points. -/
def utf8Bytes (codePoints : List Nat) : List Nat :=
  (codePoints.map utf8EncodeChar).flatten

/-- JavaScript values as they flow through the codecs: numbers are modelled
as integers (floats are out of scope), strings as lists of Unicode code
points. -/
inductive JSValue where
  | undef
  | bool (b : Bool)
  | num (n : Int)
  | str (codePoints : List Nat)
  | arr (values : List JSValue)

/-- JS ToNumber as used by the integer codecs.  Booleans become 0/1; for
the non-numeric kinds the codecs' clamp-then-truncate path turns the
resulting NaN into a stored 0, modelled by returning 0 (no claim exercises
those kinds). -/
def toNumber : JSValue → Int
  | .num n => n
  | .bool b => if b then 1 else 0
  | _ => 0

/-- JS truthiness for the values above. -/
def toBool : JSValue → Bool
  | .undef => false
  | .bool b => b
  | .num n => n ≠ 0
  | .str cps => cps ≠ []
  | .arr _ => true

/-- StringCodec.set (current revision): a falsy (absent or empty) value
writes only a zero count; otherwise the UTF-8 byte count as a varint
followed by the UTF-8 bytes, each through the uint8 codec.  Non-string
truthy values are not modelled (no claim exercises them). -/
def stringCodecSet (little : Bool) (v : JSValue) : List Nat :=
  match v with
  | .str cps =>
    if cps = [] then varintSet little 0
    else
      varintSet little ((utf8Bytes cps).length : Int) ++
        ((utf8Bytes cps).map (fun (b : Nat) => uint8SetByte little (b : Int))).flatten
  | _ => varintSet little 0

/-- StringCodec.getByteLength (current revision): varint length of the
UTF-8 byte count plus one byte per UTF-8 byte; a falsy value measures as a
zero count only. -/
def stringCodecGetByteLength (v : JSValue) : Nat :=
  match v with
  | .str cps =>
    if cps = [] then varintGetByteLength 0
    else varintGetByteLength (utf8Bytes cps).length + (utf8Bytes cps).length
  | _ => varintGetByteLength 0

/-- StreamView: a DataView/ArrayBuffer pair with a cursor offset. -/
structure StreamView where
  data : List Nat
  byteOffset : Nat

/-- Modelled from the spec: the DataView read primitive (native or
polyfill.js, neither under src/) returns the `width` bytes at `offset`, and
any access with offset + width > capacity is a fatal out-of-range error,
modelled as none. -/
def dataViewGetBytes (data : List Nat) (offset width : Nat) : Option (List Nat) :=
  if offset + width ≤ data.length then some ((data.drop offset).take width) else none

/-- Modelled from the spec: the DataView write primitive; same fatal
out-of-range behaviour as the read primitive. -/
def dataViewSetBytes (data : List Nat) (offset : Nat) (bytes : List Nat) :
    Option (List Nat) :=
  if offset + bytes.length ≤ data.length then
    some (data.take offset ++ bytes ++ data.drop (offset + bytes.length))
  else none

/-- FixedLengthCodec.get at the byte level: read the codec's width at the
cursor and advance the offset by that width. -/
def fixedLengthGet (width : Nat) (sv : StreamView) : Option (List Nat × StreamView) :=
  match dataViewGetBytes sv.data sv.byteOffset width with
  | some bs => some (bs, ⟨sv.data, sv.byteOffset + width⟩)
  | none => none

/-- FixedLengthCodec.set at the byte level: write the value's bytes at the
cursor and advance the offset by the codec's width. -/
def fixedLengthSet (sv : StreamView) (bytes : List Nat) : Option StreamView :=
  match dataViewSetBytes sv.data sv.byteOffset bytes with
  | some d => some ⟨d, sv.byteOffset + bytes.length⟩
  | none => none

/-- IntegerCodec.get through a StreamView (e.g. getInt32): read the width's
bytes at the cursor and interpret them exactly as `intGet` does. -/
def integerCodecGetSV (w : Nat) (signed little : Bool) (sv : StreamView) :
    Option (Int × StreamView) :=
  match fixedLengthGet w sv with
  | some (taken, sv2) =>
    let n := natFromLE (if little then taken else taken.reverse)
    some (if signed ∧ 2 ^ (8 * w - 1) ≤ n then (n : Int) - 2 ^ (8 * w) else (n : Int), sv2)
  | none => none

/-- The keys of `_codecTypes` in the current revision (codec classes). -/
def codecTypeNames : List String :=
  ["array", "boolean", "booleanArray", "float", "int", "object", "string", "variableLength"]

/-- The keys of `_codecs` in the current revision (shared codec instances). -/
def codecInstanceNames : List String :=
  ["boolean", "booleanArray", "float32", "float64", "int8", "int16", "int32",
   "string", "uint8", "uint16", "uint32", "variableLength"]

/-- isValidType (current revision): membership in `_codecTypes` or `_codecs`. -/
def isValidType (t : String) : Bool :=
  codecTypeNames.contains t || codecInstanceNames.contains t

/-- The shared codec instances of the current revision's `_codecs`
registry.  An ArrayCodec always wraps one of these (the registry has no
"array" entry), so arrays cannot nest. -/
inductive CodecPrim where
  | boolean
  | booleanArray
  | float32
  | float64
  | int8
  | int16
  | int32
  | uint8
  | uint16
  | uint32
  | string
  | variableLength

/-- The codec shapes a Field of the current revision can bind. -/
inductive CodecKind where
  | prim (p : CodecPrim)
  | array (valueCodec : CodecPrim)

/-- The `_codecs` shared-instance registry of the current revision: type
name to codec instance; names only present in `_codecTypes` (such as
"float", "int", "object") have no entry, which JS reports as undefined. -/
def codecsTable (t : String) : Option CodecPrim :=
  if t = "boolean" then some .boolean
  else if t = "booleanArray" then some .booleanArray
  else if t = "float32" then some .float32
  else if t = "float64" then some .float64
  else if t = "int8" then some .int8
  else if t = "int16" then some .int16
  else if t = "int32" then some .int32
  else if t = "string" then some .string
  else if t = "uint8" then some .uint8
  else if t = "uint16" then some .uint16
  else if t = "uint32" then some .uint32
  else if t = "variableLength" then some .variableLength
  else none

/-- Constructor options for a Field. -/
structure FieldSpec where
  key : String
  type : String
  valueType : Option String := none

/-- A constructed Field of the current revision.  `codec` is Option because
`this.codec = _codecs[this.type]` can bind JS undefined (modelled as none)
when the type names a codec class rather than a codec instance. -/
structure JField where
  key : String
  codec : Option CodecKind

/-- Field constructor of the current revision: requires a non-empty key and
a type accepted by `isValidType`; for arrays the element type must be a
recognized non-array, non-string name and resolvable in `_codecs` (the
ArrayCodec constructor throws otherwise); every other type is looked up in
`_codecs`, with a missing entry binding undefined rather than throwing. -/
def fieldConstruct (spec : FieldSpec) : Except String JField :=
  if spec.key = "" then .error "key is required"
  else if ¬ isValidType spec.type then .error "Invalid type"
  else if spec.type = "array" then
    match spec.valueType with
    | some vt =>
      if vt = "array" ∨ vt = "string" ∨ ¬ isValidType vt then
        .error "Invalid array value type"
      else
        match codecsTable vt with
        | some c => .ok ⟨spec.key, some (.array c)⟩
        | none => .error "Invalid array value type"
    | none => .error "Invalid array value type"
  else .ok ⟨spec.key, (codecsTable spec.type).map .prim⟩

/-- The registry codecs of the earlier revision (part_000): no booleanArray
and no variableLength codec; strings use a uint32 length.  An ArrayCodec
always wraps one of these (the registry has no "array" entry). -/
inductive P0Prim where
  | boolean
  | float32
  | float64
  | int8
  | int16
  | int32
  | uint8
  | uint16
  | uint32
  | string

/-- The codec shapes a Field of the earlier revision can bind. -/
inductive P0Codec where
  | prim (p : P0Prim)
  | array (valueCodec : P0Prim)

/-- The earlier revision's `codec.byteLength` property for registry codecs:
a number for the fixed-length codecs, absent (none) for StringCodec. -/
def p0PrimByteLength : P0Prim → Option Nat
  | .boolean => some 1
  | .int8 => some 1
  | .uint8 => some 1
  | .int16 => some 2
  | .uint16 => some 2
  | .int32 => some 4
  | .uint32 => some 4
  | .float32 => some 4
  | .float64 => some 8
  | .string => none

/-- The earlier revision's `codec.byteLength` property: also absent for
ArrayCodec. -/
def p0FixedByteLength : P0Codec → Option Nat
  | .prim p => p0PrimByteLength p
  | .array _ => none

/-- JS `(values && values.length) || 0` for a would-be array value; kinds
other than arrays are not exercised by any claim and count as 0. -/
def jsLength : JSValue → Nat
  | .arr vs => vs.length
  | _ => 0

/-- The element list an ArrayCodec iterates over. -/
def elemsOf : JSValue → List JSValue
  | .arr vs => vs
  | _ => []

/-- StringCodec.set of the earlier revision: uint32 byte-count prefix, then
the UTF-8 bytes through the uint8 codec; falsy values write a zero count. -/
def p0StringSet (little : Bool) (v : JSValue) : List Nat :=
  match v with
  | .str cps =>
    if cps = [] then intSet 4 false little 0
    else
      intSet 4 false little ((utf8Bytes cps).length : Int) ++
        ((utf8Bytes cps).map (fun (b : Nat) => uint8SetByte little (b : Int))).flatten
  | _ => intSet 4 false little 0

/-- Registry codec set dispatch for the earlier revision.  Floats are
serialized as IEEE-754 bit patterns by DataView; those bit patterns are
outside the scope of every claim and are modelled as zero-filled widths. -/
def p0PrimSet (little : Bool) : P0Prim → JSValue → List Nat
  | .boolean, v => intSet 1 false little (if toBool v then 1 else 0)
  | .int8, v => intSet 1 true little (toNumber v)
  | .int16, v => intSet 2 true little (toNumber v)
  | .int32, v => intSet 4 true little (toNumber v)
  | .uint8, v => intSet 1 false little (toNumber v)
  | .uint16, v => intSet 2 false little (toNumber v)
  | .uint32, v => intSet 4 false little (toNumber v)
  | .float32, _ => List.replicate 4 0
  | .float64, _ => List.replicate 8 0
  | .string, v => p0StringSet little v

/-- ArrayCodec.set of the earlier revision: uint32 element count, then the
back-to-back element encodings. -/
def p0ArraySet (little : Bool) (elem : P0Prim) (v : JSValue) : List Nat :=
  intSet 4 false little (jsLength v : Int) ++
    ((elemsOf v).map (p0PrimSet little elem)).flatten

/-- Registry codec getByteLength dispatch for the earlier revision. -/
def p0PrimGetByteLength : P0Prim → JSValue → Nat
  | .string, v =>
    match v with
    | .str cps => 4 + (utf8Bytes cps).length
    | _ => 4
  | p, _ => (p0PrimByteLength p).getD 0

/-- ArrayCodec.getByteLength of the earlier revision; note that it returns
0 for an absent or empty value (`if (!values || !values.length) return
0`), before any length prefix is accounted for. -/
def p0ArrayGetByteLength (elem : P0Prim) (v : JSValue) : Nat :=
  if jsLength v = 0 then 0
  else
    match p0PrimByteLength elem with
    | some w => 4 + jsLength v * w
    | none => 4 + ((elemsOf v).map (p0PrimGetByteLength elem)).sum

/-- Registry codec get dispatch for the earlier revision.  Float decoding
(IEEE-754) and UTF-8 string decoding (the external utf8 package) are
outside the scope of every claim and are modelled as none except for the
zero-length string. -/
def p0PrimGet (little : Bool) : P0Prim → List Nat → Option (JSValue × List Nat)
  | .boolean, bytes =>
    match intGet 1 false little bytes with
    | some (n, r) => some (.bool (n != 0), r)
    | none => none
  | .int8, bytes =>
    match intGet 1 true little bytes with
    | some (n, r) => some (.num n, r)
    | none => none
  | .int16, bytes =>
    match intGet 2 true little bytes with
    | some (n, r) => some (.num n, r)
    | none => none
  | .int32, bytes =>
    match intGet 4 true little bytes with
    | some (n, r) => some (.num n, r)
    | none => none
  | .uint8, bytes =>
    match intGet 1 false little bytes with
    | some (n, r) => some (.num n, r)
    | none => none
  | .uint16, bytes =>
    match intGet 2 false little bytes with
    | some (n, r) => some (.num n, r)
    | none => none
  | .uint32, bytes =>
    match intGet 4 false little bytes with
    | some (n, r) => some (.num n, r)
    | none => none
  | .float32, _ => none
  | .float64, _ => none
  | .string, bytes =>
    match intGet 4 false little bytes with
    | some (len, r) => if len ≤ 0 then some (.str [], r) else none
    | none => none

/-- Read `count` elements back-to-back for an ArrayCodec. -/
def p0ArrayGetMany (little : Bool) (elem : P0Prim) :
    Nat → List Nat → Option (List JSValue × List Nat)
  | 0, bytes => some ([], bytes)
  | n + 1, bytes =>
    match p0PrimGet little elem bytes with
    | some (v, r) =>
      match p0ArrayGetMany little elem n r with
      | some (vs, r2) => some (v :: vs, r2)
      | none => none
    | none => none

/-- ArrayCodec.get of the earlier revision: read the uint32 count, then
that many elements (a non-positive count yields an empty array). -/
def p0ArrayGet (little : Bool) (elem : P0Prim) (bytes : List Nat) :
    Option (JSValue × List Nat) :=
  match intGet 4 false little bytes with
  | some (len, r) =>
    match p0ArrayGetMany little elem len.toNat r with
    | some (vs, r2) => some (.arr vs, r2)
    | none => none
  | none => none

/-- Codec set dispatch over field codecs of the earlier revision. -/
def p0CodecSet (little : Bool) : P0Codec → JSValue → List Nat
  | .prim p, v => p0PrimSet little p v
  | .array elem, v => p0ArraySet little elem v

/-- Codec getByteLength dispatch over field codecs of the earlier revision. -/
def p0CodecGetByteLength : P0Codec → JSValue → Nat
  | .prim p, v => p0PrimGetByteLength p v
  | .array elem, v => p0ArrayGetByteLength elem v

/-- Codec get dispatch over field codecs of the earlier revision. -/
def p0CodecGet (little : Bool) : P0Codec → List Nat → Option (JSValue × List Nat)
  | .prim p, bytes => p0PrimGet little p bytes
  | .array elem, bytes => p0ArrayGet little elem bytes

/-- The earlier revision's isValidType: an explicit switch over the
recognized type names. -/
def p0ValidTypeNames : List String :=
  ["array", "string", "boolean", "int8", "int16", "int32",
   "uint8", "uint16", "uint32", "float32", "float64"]

/-- The earlier revision's isValidType. -/
def p0IsValidType (t : String) : Bool := p0ValidTypeNames.contains t

/-- The earlier revision's `codecs` registry (no "array" entry: ArrayCodec
instances are created per Field). -/
def p0CodecsTable (t : String) : Option P0Prim :=
  if t = "boolean" then some .boolean
  else if t = "float32" then some .float32
  else if t = "float64" then some .float64
  else if t = "int8" then some .int8
  else if t = "int16" then some .int16
  else if t = "int32" then some .int32
  else if t = "uint8" then some .uint8
  else if t = "uint16" then some .uint16
  else if t = "uint32" then some .uint32
  else if t = "string" then some .string
  else none

/-- A constructed Field of the earlier revision: its codec is always
resolved, since the strict isValidType list matches the registry. -/
structure P0Field where
  key : String
  codec : P0Codec

/-- Field constructor of the earlier revision. -/
def p0FieldConstruct (spec : FieldSpec) : Except String P0Field :=
  if spec.key = "" then .error "key is required"
  else if ¬ p0IsValidType spec.type then .error "Invalid type"
  else if spec.type = "array" then
    match spec.valueType with
    | some vt =>
      if vt = "array" ∨ vt = "string" ∨ ¬ p0IsValidType vt then
        .error "Invalid array value type"
      else
        match p0CodecsTable vt with
        | some c => .ok ⟨spec.key, .array c⟩
        | none => .error "Invalid array value type"
    | none => .error "Invalid array value type"
  else
    match p0CodecsTable spec.type with
    | some c => .ok ⟨spec.key, .prim c⟩
    | none => .error "Invalid type"

/-- Construct every field or fail with the first constructor error. -/
def p0FieldsConstruct : List FieldSpec → Except String (List P0Field)
  | [] => .ok []
  | s :: rest =>
    match p0FieldConstruct s with
    | .ok f =>
      match p0FieldsConstruct rest with
      | .ok fs => .ok (f :: fs)
      | .error e => .error e
    | .error e => .error e

/-- A Definition of the earlier revision.  The lazily memoized byte-length
cache is observationally pure (it only ever caches the value getByteLength
would recompute), so it is not part of the state. -/
structure P0Definition where
  fields : List P0Field
  id : Option Nat := none
  key : Option String := none
  littleEndian : Bool := false

/-- JS `object[key]`: a missing property reads as undefined. -/
def objLookup (obj : List (String × JSValue)) (k : String) : JSValue :=
  (obj.lookup k).getD (JSValue.undef)

/-- Definition.getByteLength: fixed widths contribute `codec.byteLength`,
dynamic codecs are measured per value. -/
def p0DefGetByteLength (d : P0Definition) (obj : List (String × JSValue)) : Nat :=
  (d.fields.map (fun f =>
    match p0FixedByteLength f.codec with
    | some w => w
    | none => p0CodecGetByteLength f.codec (objLookup obj f.key))).sum

/-- Definition.set: write each field in declared order. -/
def p0DefSet (d : P0Definition) (obj : List (String × JSValue)) : List Nat :=
  (d.fields.map (fun f => p0CodecSet d.littleEndian f.codec (objLookup obj f.key))).flatten

/-- Definition.get: read each field in declared order. -/
def p0DefGet (d : P0Definition) (bytes : List Nat) :
    Option (List (String × JSValue) × List Nat) :=
  d.fields.foldl
    (fun acc f =>
      match acc with
      | some (vs, bs) =>
        match p0CodecGet d.littleEndian f.codec bs with
        | some (v, r) => some (vs ++ [(f.key, v)], r)
        | none => none
      | none => none)
    (some ([], bytes))

/-- A Schema of the earlier revision. -/
structure P0Schema where
  definitions : List (String × P0Definition) := []
  definitionsById : List (Nat × P0Definition) := []
  idType : String := "uint8"
  nextDefinitionId : Nat := 1

/-- Schema.define: assign the next sequential id, construct the fields, and
register the Definition under both the name and the id (newest entry first,
matching JS property overwrite on lookup). -/
def p0Define (s : P0Schema) (key : String) (fields : List FieldSpec) :
    Except String (P0Schema × P0Definition) :=
  match p0FieldsConstruct fields with
  | .error e => .error e
  | .ok fs =>
    let id := s.nextDefinitionId
    let d : P0Definition := { fields := fs, id := some id, key := some key }
    .ok ({ s with
            definitions := (key, d) :: s.definitions,
            definitionsById := (id, d) :: s.definitionsById,
            nextDefinitionId := id + 1 }, d)

/-- Schema.parse: read the id through the id codec, look the Definition up
by id (an unregistered id is an error), and decode the remainder. -/
def p0Parse (s : P0Schema) (bytes : List Nat) :
    Except String (Option String × List (String × JSValue)) :=
  match p0CodecsTable s.idType with
  | none => .error "invalid id type"
  | some idc =>
    match p0PrimGet false idc bytes with
    | none => .error "out of range"
    | some (idv, rest) =>
      match idv with
      | .num i =>
        match s.definitionsById.find? (fun p => ((p.1 : Int)) == i) with
        | none => .error "id is not defined in schema"
        | some (_, d) =>
          match p0DefGet d rest with
          | some (vs, _) => .ok (d.key, vs)
          | none => .error "out of range"
      | _ => .error "id is not defined in schema"

/-- Schema.stringify: look the Definition up by name (an unregistered name
is an error), allocate a zero-filled buffer of idCodec.byteLength +
definition.getByteLength(object), write the id then the fields through the
cursor (any overflow is a fatal out-of-range error), and export the whole
buffer. -/
def p0Stringify (s : P0Schema) (key : String) (obj : List (String × JSValue)) :
    Except String (List Nat) :=
  match s.definitions.lookup key with
  | none => .error "key is not defined in schema"
  | some d =>
    match p0CodecsTable s.idType with
    | none => .error "invalid id type"
    | some idc =>
      let cap := (p0PrimByteLength idc).getD 0 + p0DefGetByteLength d obj
      let out := p0PrimSet false idc (.num ((d.id.getD 0 : Nat) : Int)) ++ p0DefSet d obj
      if out.length ≤ cap then .ok (out ++ List.replicate (cap - out.length) 0)
      else .error "out of range"

/-- The dispatch example schema: define "ping" first (id 1), then "pong"
with one uint8 field (id 2). -/
def demoSchema : Option P0Schema :=
  match p0Define {} "ping" [] with
  | .ok x =>
    match p0Define x.1 "pong" [⟨"n", "uint8", none⟩] with
    | .ok y => some y.1
    | .error _ => none
  | .error _ => none

theorem uint8SetByte_eq (little : Bool) (b : Int) (h0 : 0 ≤ b) (h255 : b ≤ 255) :
    uint8SetByte little b = [b.toNat] := by
  unfold uint8SetByte intSet clampInt intMinValue intMaxValue bytesLE
  have hcl : (if b < 0 then (0 : Int) else if b > 255 then 255 else b) = b := by
    rw [if_neg (by omega), if_neg (by omega)]
  norm_num [hcl]
  have hm : b % (256 : Int) = b := Int.emod_eq_of_lt h0 (by omega)
  rw [hm]
  have hb : b.toNat % 256 = b.toNat := Nat.mod_eq_of_lt (by omega)
  cases little <;> simp [bytesLE, hb]

theorem toUint32_small (x : Int) (h0 : 0 ≤ x) (hx : x < 4294967296) :
    toUint32 x = x.toNat := by
  unfold toUint32
  rw [Int.emod_eq_of_lt h0 hx]

theorem ofUint32_small (n : Nat) (h : n < 2147483648) : ofUint32 n = (n : Int) := by
  unfold ofUint32
  rw [if_pos h]

theorem jsAnd_eval (a b : Int) (ha0 : 0 ≤ a) (ha : a < 4294967296)
    (hb0 : 0 ≤ b) (hb : b < 4294967296) (hr : a.toNat &&& b.toNat < 2147483648) :
    jsAnd a b = ((a.toNat &&& b.toNat : Nat) : Int) := by
  unfold jsAnd
  rw [toUint32_small a ha0 ha, toUint32_small b hb0 hb]
  exact ofUint32_small _ hr

theorem jsOr_eval (a b : Int) (ha0 : 0 ≤ a) (ha : a.toNat < 2147483648)
    (hb0 : 0 ≤ b) (hb : b.toNat < 2147483648) :
    jsOr a b = ((a.toNat ||| b.toNat : Nat) : Int) := by
  unfold jsOr
  rw [toUint32_small a ha0 (by omega), toUint32_small b hb0 (by omega)]
  refine ofUint32_small _ ?_
  have h31 : (2147483648 : Nat) = 2 ^ 31 := by norm_num
  rw [h31] at ha hb ⊢
  exact Nat.or_lt_two_pow ha hb

theorem jsShl_eval (a : Int) (k : Nat) (ha0 : 0 ≤ a) (hk : k < 32)
    (h : a.toNat * 2 ^ k < 2147483648) :
    jsShl a k = ((a.toNat * 2 ^ k : Nat) : Int) := by
  unfold jsShl
  have ha : a < 4294967296 := by
    have h1 : 1 ≤ 2 ^ k := Nat.one_le_two_pow
    have : a.toNat ≤ a.toNat * 2 ^ k := Nat.le_mul_of_pos_right _ (by omega)
    omega
  rw [toUint32_small a ha0 ha, Nat.mod_eq_of_lt hk, Nat.shiftLeft_eq,
    Nat.mod_eq_of_lt (by omega)]
  exact ofUint32_small _ h

theorem jsShr_eval (a : Int) (k : Nat) (ha0 : 0 ≤ a) (hk : k < 32)
    (h : a < 2147483648) :
    jsShr a k = ((a.toNat / 2 ^ k : Nat) : Int) := by
  unfold jsShr
  rw [toUint32_small a ha0 (by omega), ofUint32_small _ (by omega),
    Nat.mod_eq_of_lt hk]
  norm_cast

theorem lor_mul_pow_eq_add {k : Nat} (b c : Nat) (hb : b < 2 ^ k) :
    b ||| c * 2 ^ k = b + c * 2 ^ k := by
  have h := Nat.mul_add_lt_is_or (i := k) hb c
  rw [Nat.lor_comm, Nat.mul_comm] at h
  omega

theorem and_two_pow_sub_one (n k : Nat) : n &&& (2 ^ k - 1) = n % 2 ^ k := by
  have := Nat.and_pow_two_sub_one_eq_mod n k
  omega

theorem and_127_eq_mod (n : Nat) : n &&& 127 = n % 128 := by
  have := and_two_pow_sub_one n 7
  norm_num at this
  exact this

theorem and_128_of_lt {b : Nat} (h : b < 128) : b &&& 128 = 0 := by
  have h7 : Nat.testBit b 7 = false := by
    apply Nat.testBit_eq_false_of_lt
    norm_num
    omega
  have := Nat.and_two_pow b 7
  norm_num [h7] at this
  exact this

theorem and_128_of_ge {b : Nat} (hl : 128 ≤ b) (hu : b < 256) : b &&& 128 = 128 := by
  have h7 : Nat.testBit b 7 = true := by
    rw [Nat.testBit_to_div_mod]
    simp only [decide_eq_true_eq]
    omega
  have := Nat.and_two_pow b 7
  norm_num [h7] at this
  exact this

theorem jsAnd_byte127 (b : Nat) (hb : b < 4294967296) :
    jsAnd ((b : Nat) : Int) 127 = ((b % 128 : Nat) : Int) := by
  unfold jsAnd
  rw [toUint32_small _ (by positivity) (by exact_mod_cast hb)]
  rw [show toUint32 127 = 127 from rfl]
  rw [Int.toNat_natCast]
  rw [and_127_eq_mod]
  exact ofUint32_small _ (by omega)

theorem jsAnd_byte128 (b : Nat) (hb : b < 4294967296) :
    jsAnd ((b : Nat) : Int) 128 = ((b &&& 128 : Nat) : Int) := by
  unfold jsAnd
  rw [toUint32_small _ (by positivity) (by exact_mod_cast hb)]
  rw [show toUint32 128 = 128 from rfl]
  rw [Int.toNat_natCast]
  refine ofUint32_small _ ?_
  have hle : b &&& 128 ≤ 128 := Nat.and_le_right
  omega

theorem varintDigits_unfold (v : Nat) (h : 0 < v) :
    varintDigits v =
      if v / 128 = 0 then [v % 128] else (v % 128 + 128) :: varintDigits (v / 128) := by
  match v, h with
  | n + 1, _ => rw [varintDigits]

theorem varintSetLoop_eq_digits (v : Nat) (hv : v < 2147483648) (h0 : 0 < v)
    (little : Bool) : varintSetLoop little (v : Int) = varintDigits v := by
  induction v using Nat.strong_induction_on with
  | _ v ih =>
    have hmlt : v % 128 < 128 := Nat.mod_lt v (by norm_num)
    have hShr : jsShr (v : Int) 7 = ((v / 128 : Nat) : Int) := by
      rw [jsShr_eval v 7 (by positivity) (by norm_num) (by exact_mod_cast hv)]
      norm_num
    have hAnd : jsAnd (v : Int) 127 = ((v % 128 : Nat) : Int) := by
      rw [jsAnd_eval v 127 (by positivity)
        (by exact_mod_cast (show v < 4294967296 by omega)) (by norm_num) (by norm_num)
        (by simp [and_127_eq_mod]; omega)]
      simp [and_127_eq_mod]
    have hOr : jsOr ((v % 128 : Nat) : Int) 128 = ((v % 128 + 128 : Nat) : Int) := by
      rw [jsOr_eval _ 128 (by positivity) (by simp; omega) (by norm_num) (by norm_num)]
      have hlor := lor_mul_pow_eq_add (k := 7) (v % 128) 1 (by norm_num; omega)
      norm_num at hlor ⊢
      exact_mod_cast hlor
    rw [varintSetLoop.eq_def, dif_pos (by exact_mod_cast h0), hShr, hAnd]
    rw [varintDigits_unfold v h0]
    by_cases hdiv : v / 128 = 0
    · rw [if_pos hdiv, hdiv]
      rw [if_neg (by norm_num)]
      rw [varintSetLoop.eq_def, dif_neg (by norm_num)]
      rw [uint8SetByte_eq little _ (by positivity)
        (by exact_mod_cast (show v % 128 ≤ 255 by omega))]
      simp
      omega
    · rw [if_neg hdiv]
      rw [if_pos (by exact_mod_cast hdiv)]
      rw [hOr]
      rw [uint8SetByte_eq little _ (by positivity)
        (by exact_mod_cast (show v % 128 + 128 ≤ 255 by omega))]
      have hlt : v / 128 < v := Nat.div_lt_self h0 (by norm_num)
      rw [ih (v / 128) hlt (by omega) (Nat.pos_of_ne_zero hdiv)]
      simp
      omega

theorem varintSet_digits (little : Bool) (v : Nat) (hv : v < 2147483648) :
    varintSet little (v : Int) = if v = 0 then [0] else varintDigits v := by
  unfold varintSet
  by_cases h : v = 0
  · subst h
    rw [if_pos (by norm_num), if_pos rfl]
    rw [uint8SetByte_eq little 0 le_rfl (by norm_num)]
    rfl
  · rw [if_neg (by exact_mod_cast h), if_neg h]
    exact varintSetLoop_eq_digits v hv (Nat.pos_of_ne_zero h) little

theorem log2_eq_of {v n : Nat} (h1 : 2 ^ n ≤ v) (h2 : v < 2 ^ (n + 1)) :
    Nat.log2 v = n := by
  have hne : v ≠ 0 := by
    have : (1 : Nat) ≤ 2 ^ n := Nat.one_le_two_pow
    omega
  have hle : n ≤ Nat.log2 v := (Nat.le_log2 hne).2 h1
  have hlt : Nat.log2 v < n + 1 := (Nat.log2_lt hne).2 h2
  omega

theorem log2_div128 {v : Nat} (h : 128 ≤ v) : Nat.log2 (v / 128) = Nat.log2 v - 7 := by
  have hne : v ≠ 0 := by omega
  have h1 : 2 ^ Nat.log2 v ≤ v := Nat.log2_self_le hne
  have h2 : v < 2 ^ (Nat.log2 v + 1) := Nat.lt_log2_self
  have h7 : 7 ≤ Nat.log2 v := (Nat.le_log2 hne).2 (by norm_num; omega)
  apply log2_eq_of
  · have heq : 2 ^ (Nat.log2 v - 7) * 128 = 2 ^ Nat.log2 v := by
      rw [show (128 : Nat) = 2 ^ 7 by norm_num, ← pow_add]
      congr 1
      omega
    exact (Nat.le_div_iff_mul_le (by norm_num)).2 (by omega)
  · rw [Nat.div_lt_iff_lt_mul (by norm_num)]
    have heq : 2 ^ (Nat.log2 v - 7 + 1) * 128 = 2 ^ (Nat.log2 v + 1) := by
      rw [show (128 : Nat) = 2 ^ 7 by norm_num, ← pow_add]
      congr 1
      omega
    omega

theorem varintDigits_length (v : Nat) (h0 : 0 < v) :
    (varintDigits v).length = Nat.log2 v / 7 + 1 := by
  induction v using Nat.strong_induction_on with
  | _ v ih =>
    rw [varintDigits_unfold v h0]
    by_cases hdiv : v / 128 = 0
    · rw [if_pos hdiv]
      have hlog : Nat.log2 v < 7 := (Nat.log2_lt (by omega)).2 (by norm_num; omega)
      simp
      omega
    · rw [if_neg hdiv]
      have h128 : 128 ≤ v := by omega
      simp only [List.length_cons]
      rw [ih (v / 128) (Nat.div_lt_self h0 (by norm_num)) (Nat.pos_of_ne_zero hdiv)]
      rw [log2_div128 h128]
      have h7 : 7 ≤ Nat.log2 v := (Nat.le_log2 (by omega)).2 (by norm_num; omega)
      omega

theorem varintGetByteLength_pos (v : Nat) (h0 : 0 < v) :
    varintGetByteLength v = Nat.log2 v / 7 + 1 := by
  unfold varintGetByteLength
  rw [if_neg (by omega)]
  rw [show Nat.log2 v + 1 + 6 = Nat.log2 v + 7 by omega, Nat.add_div_right _ (by norm_num)]
  omega

theorem varintGetLoop_cons (b : Nat) (rest : List Nat) (acc : Int) (i : Nat) :
    varintGetLoop (b :: rest) acc i =
      if jsAnd (b : Int) 128 ≠ 0 then
        varintGetLoop rest (jsOr acc (jsShl (jsAnd (b : Int) 127) (i * 7))) (i + 1)
      else some (jsOr acc (jsShl (jsAnd (b : Int) 127) (i * 7)), rest) := rfl

theorem varintGetLoop_digits (v : Nat) (h0 : 0 < v) :
    ∀ i acc rest, acc < 2 ^ (i * 7) → acc + v * 2 ^ (i * 7) < 2147483648 →
      varintGetLoop (varintDigits v ++ rest) ((acc : Nat) : Int) i =
        some (((acc + v * 2 ^ (i * 7) : Nat) : Int), rest) := by
  induction v using Nat.strong_induction_on with
  | _ v ih =>
    intro i acc rest hacc hbound
    have hi : i * 7 < 31 := by
      by_contra hge
      push_neg at hge
      have hp : (2147483648 : Nat) ≤ 2 ^ (i * 7) := by
        calc (2147483648 : Nat) = 2 ^ 31 := by norm_num
        _ ≤ 2 ^ (i * 7) := Nat.pow_le_pow_right (by norm_num) hge
      have hv : 2 ^ (i * 7) ≤ v * 2 ^ (i * 7) := by
        calc 2 ^ (i * 7) = 1 * 2 ^ (i * 7) := by ring
        _ ≤ v * 2 ^ (i * 7) := Nat.mul_le_mul_right _ h0
      omega
    have hmlt : v % 128 < 128 := Nat.mod_lt v (by norm_num)
    have haccb : acc < 2147483648 := by omega
    have hshl : ∀ g : Nat, g * 2 ^ (i * 7) < 2147483648 →
        jsShl ((g : Nat) : Int) (i * 7) = ((g * 2 ^ (i * 7) : Nat) : Int) := by
      intro g hg2
      rw [jsShl_eval _ _ (by positivity) (by omega)
        (by simpa only [Int.toNat_natCast] using hg2)]
      rw [Int.toNat_natCast]
    have hor : ∀ g : Nat, g * 2 ^ (i * 7) < 2147483648 →
        jsOr ((acc : Nat) : Int) ((g * 2 ^ (i * 7) : Nat) : Int) =
          ((acc + g * 2 ^ (i * 7) : Nat) : Int) := by
      intro g hg2
      rw [jsOr_eval _ _ (by positivity) (by simpa only [Int.toNat_natCast] using haccb)
        (by positivity) (by simpa only [Int.toNat_natCast] using hg2)]
      simp only [Int.toNat_natCast]
      rw [lor_mul_pow_eq_add acc _ hacc]
    rw [varintDigits_unfold v h0]
    by_cases hdiv : v / 128 = 0
    · rw [if_pos hdiv]
      have hv128 : v < 128 := by omega
      have hvmod : v % 128 = v := Nat.mod_eq_of_lt hv128
      rw [hvmod, List.cons_append, varintGetLoop_cons]
      rw [jsAnd_byte128 v (by omega), and_128_of_lt hv128]
      rw [if_neg (by norm_num)]
      rw [jsAnd_byte127 v (by omega), hvmod]
      have hvb : v * 2 ^ (i * 7) < 2147483648 := by omega
      rw [hshl v hvb, hor v hvb]
      simp
    · rw [if_neg hdiv]
      have hbyte : v % 128 + 128 < 256 := by omega
      rw [List.cons_append, varintGetLoop_cons]
      rw [jsAnd_byte128 (v % 128 + 128) (by omega),
        and_128_of_ge (by omega : 128 ≤ v % 128 + 128) hbyte]
      rw [if_pos (by norm_num)]
      rw [jsAnd_byte127 (v % 128 + 128) (by omega)]
      rw [show (v % 128 + 128) % 128 = v % 128 by omega]
      have hmb : v % 128 * 2 ^ (i * 7) < 2147483648 := by
        have hle : v % 128 ≤ v := Nat.mod_le v 128
        have hmul := Nat.mul_le_mul_right (2 ^ (i * 7)) hle
        omega
      rw [hshl (v % 128) hmb, hor (v % 128) hmb]
      have hsplit : v % 128 + 128 * (v / 128) = v := Nat.mod_add_div v 128
      have hpow : 2 ^ ((i + 1) * 7) = 2 ^ (i * 7) * 128 := by
        rw [show (i + 1) * 7 = i * 7 + 7 by ring, pow_add]
        norm_num
      have hkey : (acc + v % 128 * 2 ^ (i * 7)) + v / 128 * 2 ^ ((i + 1) * 7) =
          acc + v * 2 ^ (i * 7) := by
        rw [hpow]
        calc (acc + v % 128 * 2 ^ (i * 7)) + v / 128 * (2 ^ (i * 7) * 128)
            = acc + (v % 128 + 128 * (v / 128)) * 2 ^ (i * 7) := by ring
        _ = acc + v * 2 ^ (i * 7) := by rw [hsplit]
      have hacc2 : acc + v % 128 * 2 ^ (i * 7) < 2 ^ ((i + 1) * 7) := by
        rw [hpow]
        have h1 : v % 128 * 2 ^ (i * 7) ≤ 127 * 2 ^ (i * 7) :=
          Nat.mul_le_mul_right _ (by omega)
        nlinarith
      have hrec := ih (v / 128) (Nat.div_lt_self h0 (by norm_num))
        (Nat.pos_of_ne_zero hdiv) (i + 1) (acc + v % 128 * 2 ^ (i * 7)) rest hacc2
        (by omega)
      rw [hrec, hkey]

theorem varint_roundtrip_aux (little : Bool) (v : Nat) (hv : v < 2147483648)
    (rest : List Nat) :
    varintGet (varintSet little (v : Int) ++ rest) = some ((v : Int), rest) ∧
    (varintSet little (v : Int)).length = varintGetByteLength v := by
  rw [varintSet_digits little v hv]
  by_cases h : v = 0
  · subst h
    rw [if_pos rfl]
    constructor
    · unfold varintGet
      rw [List.cons_append, List.nil_append, varintGetLoop_cons]
      norm_num [jsAnd, jsOr, jsShl, toUint32, ofUint32]
    · rfl
  · rw [if_neg h]
    have h0 : 0 < v := Nat.pos_of_ne_zero h
    constructor
    · have hmain := varintGetLoop_digits v h0 0 0 rest (by norm_num) (by norm_num; omega)
      unfold varintGet
      norm_num at hmain
      exact hmain
    · rw [varintDigits_length v h0, varintGetByteLength_pos v h0]

theorem intMinValue_le_intMaxValue (w : Nat) (s : Bool) :
    intMinValue w s ≤ intMaxValue w s := by
  unfold intMinValue intMaxValue
  cases s
  · simp only [Bool.false_eq_true, if_false]
    have h1 : (0 : Int) < 2 ^ (8 * w) := by positivity
    omega
  · simp only [if_true]
    have h1 : (0 : Int) < 2 ^ (8 * w - 1) := by positivity
    omega

theorem clampInt_mem {lo hi : Int} (v : Int) (h : lo ≤ hi) :
    lo ≤ clampInt lo hi v ∧ clampInt lo hi v ≤ hi := by
  unfold clampInt
  split
  · omega
  · split <;> omega

theorem clampInt_idem {lo hi : Int} (v : Int) (h : lo ≤ hi) :
    clampInt lo hi (clampInt lo hi v) = clampInt lo hi v := by
  have hm := clampInt_mem v h
  unfold clampInt
  omega

theorem clampInt_eq_self_iff {lo hi : Int} (v : Int) (h : lo ≤ hi) :
    clampInt lo hi v = v ↔ (lo ≤ v ∧ v ≤ hi) := by
  unfold clampInt
  split
  · omega
  · split <;> omega

theorem bytesLE_length (w n : Nat) : (bytesLE w n).length = w := by
  induction w generalizing n with
  | zero => rfl
  | succ w ih => simp [bytesLE, ih]

theorem natFromLE_bytesLE (w n : Nat) : natFromLE (bytesLE w n) = n % 256 ^ w := by
  induction w generalizing n with
  | zero => simp [bytesLE, natFromLE, Nat.mod_one]
  | succ w ih =>
    simp only [bytesLE, natFromLE, ih]
    have hM : 0 < 256 ^ w := pow_pos (by norm_num) w
    have hr : n % 256 < 256 := Nat.mod_lt _ (by norm_num)
    have hq : n / 256 % 256 ^ w < 256 ^ w := Nat.mod_lt _ hM
    have hd1 : 256 * (n / 256) + n % 256 = n := Nat.div_add_mod n 256
    have hd2 : 256 ^ w * (n / 256 / 256 ^ w) + n / 256 % 256 ^ w = n / 256 :=
      Nat.div_add_mod (n / 256) (256 ^ w)
    have hpow : 256 ^ (w + 1) = 256 ^ w * 256 := pow_succ 256 w
    have hsplit : n = 256 ^ (w + 1) * (n / 256 / 256 ^ w) +
        (n % 256 + 256 * (n / 256 % 256 ^ w)) := by
      conv_lhs => rw [← hd1, ← hd2]
      rw [hpow]
      ring
    have hlt : n % 256 + 256 * (n / 256 % 256 ^ w) < 256 ^ (w + 1) := by
      rw [hpow]
      nlinarith
    conv_rhs => rw [hsplit]
    rw [Nat.mul_add_mod, Nat.mod_eq_of_lt hlt]

theorem pow256_eq (w : Nat) : (256 : Nat) ^ w = 2 ^ (8 * w) := by
  rw [show (256 : Nat) = 2 ^ 8 by norm_num, ← pow_mul]

theorem intSet_length (w : Nat) (s little : Bool) (v : Int) :
    (intSet w s little v).length = w := by
  simp only [intSet]
  split <;> simp [bytesLE_length]

theorem intGet_raw (w : Nat) (s little : Bool) (rep : Nat) (hrep : rep < 2 ^ (8 * w))
    (rest : List Nat) :
    intGet w s little ((if little then bytesLE w rep else (bytesLE w rep).reverse) ++ rest) =
      some (if s = true ∧ 2 ^ (8 * w - 1) ≤ rep then (rep : Int) - 2 ^ (8 * w)
            else (rep : Int), rest) := by
  have hlen : (bytesLE w rep).length = w := bytesLE_length w rep
  have hmod : rep % 256 ^ w = rep := by
    rw [pow256_eq]
    exact Nat.mod_eq_of_lt hrep
  cases little
  · simp only [Bool.false_eq_true, if_false]
    simp only [intGet]
    rw [if_pos (by simp [hlen])]
    rw [List.take_left' (by simp [hlen]), List.drop_left' (by simp [hlen])]
    simp only [Bool.false_eq_true, if_false, List.reverse_reverse]
    rw [natFromLE_bytesLE, hmod]
  · simp only [if_true]
    simp only [intGet]
    rw [if_pos (by simp [hlen])]
    rw [List.take_left' hlen, List.drop_left' hlen]
    simp only [if_true]
    rw [natFromLE_bytesLE, hmod]

theorem intGet_intSet (w : Nat) (s little : Bool) (v : Int) (rest : List Nat)
    (hw : 0 < w) :
    intGet w s little (intSet w s little v ++ rest) =
      some (clampInt (intMinValue w s) (intMaxValue w s) v, rest) := by
  have hminmax := intMinValue_le_intMaxValue w s
  have hmem := clampInt_mem v hminmax
  have hA : ((2 ^ (8 * w) : Nat) : Int) = 2 ^ (8 * w) := by push_cast; ring
  have hA1 : ((2 ^ (8 * w - 1) : Nat) : Int) = 2 ^ (8 * w - 1) := by push_cast; ring
  have hB : (2 : Int) ^ (8 * w) = 2 * 2 ^ (8 * w - 1) := by
    rw [← pow_succ']
    congr 1
    omega
  have hp : (0 : Int) < 2 ^ (8 * w) := by positivity
  set c := clampInt (intMinValue w s) (intMaxValue w s) v with hc
  have hrep0 : 0 ≤ c % 2 ^ (8 * w) := Int.emod_nonneg c (by positivity)
  have hreplt : c % 2 ^ (8 * w) < 2 ^ (8 * w) := Int.emod_lt_of_pos c hp
  simp only [intSet, ← hc]
  rw [intGet_raw w s little _ (by omega) rest]
  congr 2
  cases s
  · -- unsigned: the clamp keeps c in [0, 2^(8w) - 1]
    simp [intMinValue, intMaxValue] at hmem
    rw [if_neg (by simp)]
    have hmodc : c % 2 ^ (8 * w) = c := Int.emod_eq_of_lt (by omega) (by omega)
    rw [hmodc]
    omega
  · -- signed: two's complement round trip
    simp [intMinValue, intMaxValue] at hmem
    rcases le_or_lt 0 c with hcnn | hcneg
    · have hmodc : c % 2 ^ (8 * w) = c := Int.emod_eq_of_lt (by omega) (by omega)
      rw [hmodc]
      rw [if_neg (by
        rintro ⟨-, hcond⟩
        omega)]
      omega
    · have hsh : c % 2 ^ (8 * w) = c + 2 ^ (8 * w) := by
        have h1 : (c + 2 ^ (8 * w) * 1) % 2 ^ (8 * w) = c % 2 ^ (8 * w) :=
          Int.add_mul_emod_self_left c (2 ^ (8 * w)) 1
        have h2 : (c + 2 ^ (8 * w)) % 2 ^ (8 * w) = c + 2 ^ (8 * w) :=
          Int.emod_eq_of_lt (by omega) (by omega)
        rw [mul_one] at h1
        omega
      rw [hsh]
      rw [if_pos ⟨rfl, by omega⟩]
      omega

theorem packLoop_nil (byte bit : Nat) :
    packLoop [] byte bit = if 0 < bit then [byte] else [] := by
  rw [packLoop.eq_def]

theorem packLoop_cons (v : Bool) (rest : List Bool) (byte bit : Nat) :
    packLoop (v :: rest) byte bit =
      if bit = 8 then byte :: packLoop (v :: rest) 0 0
      else packLoop rest (byte ||| ((if v then 1 else 0) <<< bit)) (bit + 1) := by
  rw [packLoop.eq_def]

theorem packLoop_go (l : List Bool) : ∀ byte bit : Nat, bit < 8 → byte < 2 ^ bit →
    packLoop l byte bit =
      if l = [] then (if 0 < bit then [byte] else [])
      else (byte + 2 ^ bit * byteOf (l.take (8 - bit))) :: packLoop (l.drop (8 - bit)) 0 0 := by
  induction l with
  | nil =>
    intro byte bit hbit hbyte
    rw [packLoop_nil, if_pos rfl]
  | cons v rest ih =>
    intro byte bit hbit hbyte
    rw [if_neg (by simp)]
    rw [packLoop_cons, if_neg (by omega)]
    have hbv : (if v then 1 else 0 : Nat) ≤ 1 := by cases v <;> simp
    have hshift : (if v then 1 else 0 : Nat) <<< bit = (if v then 1 else 0) * 2 ^ bit :=
      Nat.shiftLeft_eq _ _
    have hlor : byte ||| ((if v then 1 else 0 : Nat) <<< bit) =
        byte + (if v then 1 else 0) * 2 ^ bit := by
      rw [hshift]
      exact lor_mul_pow_eq_add byte _ hbyte
    have hpow1 : (2 : Nat) ^ (bit + 1) = 2 ^ bit * 2 := pow_succ 2 bit
    have hlt2 : byte + (if v then 1 else 0) * 2 ^ bit < 2 ^ (bit + 1) := by
      have h1 : (if v then 1 else 0 : Nat) * 2 ^ bit ≤ 1 * 2 ^ bit :=
        Nat.mul_le_mul_right _ hbv
      have h2 : (2 : Nat) ^ (bit + 1) = 2 ^ bit * 2 := pow_succ 2 bit
      omega
    by_cases hb7 : bit = 7
    · subst hb7
      rw [hlor]
      have htake : (v :: rest).take (8 - 7) = [v] := by simp
      have hdrop : (v :: rest).drop (8 - 7) = rest := by simp
      rw [htake, hdrop]
      have hone : byteOf [v] = (if v then 1 else 0) := rfl
      rw [hone]
      cases rest with
      | nil =>
        rw [packLoop_nil, if_pos (show (0 : Nat) < 8 by norm_num), packLoop_nil,
          if_neg (show ¬ (0 : Nat) < 0 by norm_num)]
        rw [Nat.mul_comm (2 ^ 7) (if v then 1 else 0)]
      | cons w r =>
        rw [packLoop_cons, if_pos rfl]
        rw [Nat.mul_comm (2 ^ 7) (if v then 1 else 0)]
    · have hbit7 : bit < 7 := by omega
      rw [hlor]
      rw [ih _ (bit + 1) (by omega) hlt2]
      have htake : (v :: rest).take (8 - bit) = v :: rest.take (7 - bit) := by
        rw [show 8 - bit = (7 - bit) + 1 by omega]
        rfl
      have hdrop : (v :: rest).drop (8 - bit) = rest.drop (7 - bit) := by
        rw [show 8 - bit = (7 - bit) + 1 by omega]
        rfl
      rw [htake, hdrop]
      have hbyteOf : byteOf (v :: rest.take (7 - bit)) =
          (if v then 1 else 0) + 2 * byteOf (rest.take (7 - bit)) := rfl
      by_cases hrest : rest = []
      · subst hrest
        rw [if_pos rfl, if_pos (show 0 < bit + 1 by omega)]
        simp only [List.take_nil, List.drop_nil]
        rw [packLoop_nil, if_neg (show ¬ (0 : Nat) < 0 by norm_num)]
        rw [show byteOf [v] = (if v then 1 else 0) from rfl]
        rw [Nat.mul_comm (2 ^ bit) (if v then 1 else 0)]
      · rw [if_neg hrest]
        rw [show 8 - (bit + 1) = 7 - bit by omega]
        rw [hbyteOf]
        rw [List.cons.injEq]
        refine ⟨?_, rfl⟩
        rw [hpow1]
        ring

theorem packLoop_zero (l : List Bool) (h : l ≠ []) :
    packLoop l 0 0 = byteOf (l.take 8) :: packLoop (l.drop 8) 0 0 := by
  rw [packLoop_go l 0 0 (by norm_num) (by norm_num), if_neg h]
  norm_num

theorem packLoop_length (l : List Bool) :
    (packLoop l 0 0).length = (l.length + 7) / 8 := by
  suffices H : ∀ n (l : List Bool), l.length = n →
      (packLoop l 0 0).length = (l.length + 7) / 8 from H l.length l rfl
  intro n
  induction n using Nat.strong_induction_on with
  | _ n ih =>
    intro l hlen
    cases l with
    | nil => rw [packLoop_nil, if_neg (by norm_num)]; rfl
    | cons v rest =>
      rw [packLoop_zero _ (by simp)]
      simp only [List.length_cons]
      have hlen2 : rest.length + 1 = n := by simpa using hlen
      have hrec := ih ((v :: rest).drop 8).length (by simp; omega) _ rfl
      rw [hrec]
      simp only [List.length_drop, List.length_cons]
      omega

theorem range_map_testBit_byteOf (bs : List Bool) :
    (List.range bs.length).map (fun i => Nat.testBit (byteOf bs) i) = bs := by
  induction bs with
  | nil => simp
  | cons b bs ih =>
    rw [List.length_cons, List.range_succ_eq_map]
    simp only [List.map_cons, List.map_map]
    have h0 : Nat.testBit (byteOf (b :: bs)) 0 = b := by
      simp only [byteOf, Nat.testBit_zero]
      cases b <;> simp <;> omega
    have hdiv : byteOf (b :: bs) / 2 = byteOf bs := by
      simp only [byteOf]
      cases b <;> simp <;> omega
    have hcomp : (fun i => Nat.testBit (byteOf (b :: bs)) i) ∘ (· + 1) =
        fun i => Nat.testBit (byteOf bs) i := by
      funext i
      rw [Function.comp_apply, Nat.testBit_add_one, hdiv]
    rw [h0, hcomp, ih]

theorem boolArrayReadBits_zero (bytes : List Nat) :
    boolArrayReadBits 0 bytes = some ([], bytes) := by
  rw [boolArrayReadBits.eq_def]

theorem boolArrayReadBits_succ (n : Nat) (byte : Nat) (rest : List Nat) :
    boolArrayReadBits (n + 1) (byte :: rest) =
      match boolArrayReadBits (n + 1 - min 8 (n + 1)) rest with
      | some (vs, r) =>
        some ((List.range (min 8 (n + 1))).map (fun bit => Nat.testBit byte bit) ++ vs, r)
      | none => none := by
  rw [boolArrayReadBits.eq_def]

theorem boolArrayReadBits_pack (l : List Bool) (rest : List Nat) :
    boolArrayReadBits l.length (packLoop l 0 0 ++ rest) = some (l, rest) := by
  suffices H : ∀ n (l : List Bool) (rest : List Nat), l.length = n →
      boolArrayReadBits l.length (packLoop l 0 0 ++ rest) = some (l, rest) from
    H l.length l rest rfl
  intro n
  induction n using Nat.strong_induction_on with
  | _ n ih =>
    intro l rest hlen
    cases l with
    | nil =>
      rw [packLoop_nil, if_neg (by norm_num), List.nil_append, List.length_nil]
      exact boolArrayReadBits_zero rest
    | cons v tail =>
      rw [packLoop_zero _ (by simp), List.length_cons, List.cons_append]
      rw [boolArrayReadBits_succ]
      have hlen2 : tail.length + 1 = n := by simpa using hlen
      have hdlen : ((v :: tail).drop 8).length = tail.length + 1 - min 8 (tail.length + 1) := by
        simp
        omega
      have hrec := ih ((v :: tail).drop 8).length (by simp; omega) ((v :: tail).drop 8) rest rfl
      rw [hdlen] at hrec
      rw [hrec]
      have htlen : ((v :: tail).take 8).length = min 8 (tail.length + 1) := by
        simp
        omega
      have hbits := range_map_testBit_byteOf ((v :: tail).take 8)
      rw [htlen] at hbits
      show some ((List.range (min 8 (tail.length + 1))).map
          (fun bit => Nat.testBit (byteOf ((v :: tail).take 8)) bit) ++ (v :: tail).drop 8,
          rest) = some (v :: tail, rest)
      rw [hbits, List.take_append_drop]

theorem booleanArray_roundtrip_aux (little : Bool) (l : List Bool)
    (h : l.length < 2147483648) (rest : List Nat) :
    booleanArrayGet (booleanArraySet little l ++ rest) = some (l, rest) := by
  unfold booleanArraySet booleanArrayGet
  rw [List.append_assoc]
  rw [(varint_roundtrip_aux little l.length h (packLoop l 0 0 ++ rest)).1]
  simp only [Int.toNat_natCast]
  exact boolArrayReadBits_pack l rest

theorem varintSet_zero (little : Bool) : varintSet little 0 = [0] := by
  rw [varintSet, if_pos rfl, uint8SetByte_eq little 0 le_rfl (by norm_num)]
  rfl

theorem varintSet_two_pow31 : varintSet false (2147483648 : Int) = [128] := by
  rw [varintSet]
  rw [varintSetLoop.eq_def, varintSetLoop.eq_def]
  decide

theorem byteOf_replicate_false (k : Nat) : byteOf (List.replicate k false) = 0 := by
  induction k with
  | zero => rfl
  | succ k ih => simp [List.replicate_succ, byteOf, ih]

theorem packLoop_replicate_false (k : Nat) :
    packLoop (List.replicate (8 * k) false) 0 0 = List.replicate k 0 := by
  induction k with
  | zero =>
    rw [show 8 * 0 = 0 by ring]
    rw [List.replicate_zero, packLoop_nil, if_neg (by norm_num)]
    rfl
  | succ k ih =>
    have hne : List.replicate (8 * (k + 1)) false ≠ [] := by
      simp
    rw [packLoop_zero _ hne]
    rw [List.take_replicate, List.drop_replicate]
    have hmin : min 8 (8 * (k + 1)) = 8 := by omega
    have hsub : 8 * (k + 1) - 8 = 8 * k := by omega
    rw [hmin, hsub, byteOf_replicate_false, ih]
    rfl

theorem booleanArrayGet_cont_zero (rest : List Nat) :
    booleanArrayGet (128 :: 0 :: rest) = some ([], rest) := by
  unfold booleanArrayGet varintGet
  have h : varintGetLoop (128 :: 0 :: rest) 0 0 = some (0, rest) := rfl
  rw [h]
  exact boolArrayReadBits_zero rest

theorem booleanArraySet_replicate_31 :
    booleanArraySet false (List.replicate (2 ^ 31) false) =
      128 :: List.replicate (2 ^ 28) 0 := by
  unfold booleanArraySet
  rw [List.length_replicate]
  rw [show (((2 : Nat) ^ 31 : Nat) : Int) = (2147483648 : Int) by norm_num]
  rw [varintSet_two_pow31]
  rw [show (2 : Nat) ^ 31 = 8 * 2 ^ 28 by norm_num]
  rw [packLoop_replicate_false]
  rfl

theorem utf8Len_eq_sum (cps : List Nat) :
    (utf8Bytes cps).length = (cps.map (fun c => (utf8EncodeChar c).length)).sum := by
  unfold utf8Bytes
  rw [List.length_flatten, List.map_map]
  rfl

theorem utf8EncodeChar_length_one {c : Nat} (h : c < 128) :
    (utf8EncodeChar c).length = 1 := by
  unfold utf8EncodeChar
  rw [if_pos h]
  rfl

theorem utf8EncodeChar_length_ge_two {c : Nat} (h : 128 ≤ c) :
    2 ≤ (utf8EncodeChar c).length := by
  unfold utf8EncodeChar
  rw [if_neg (by omega)]
  split
  · rfl
  · split <;> simp

theorem p0Define_ok (s : P0Schema) (key : String) (fields : List FieldSpec)
    (s2 : P0Schema) (d : P0Definition) (h : p0Define s key fields = .ok (s2, d)) :
    d.id = some s.nextDefinitionId ∧ s2.nextDefinitionId = s.nextDefinitionId + 1 ∧
    s2.definitions.lookup key = some d ∧
    s2.definitionsById.lookup s.nextDefinitionId = some d := by
  unfold p0Define at h
  cases hf : p0FieldsConstruct fields with
  | error e =>
    rw [hf] at h
    exact absurd h (by simp)
  | ok fs =>
    rw [hf] at h
    simp only [Except.ok.injEq, Prod.mk.injEq] at h
    obtain ⟨hs2, hd⟩ := h
    subst hs2
    subst hd
    refine ⟨rfl, rfl, ?_, ?_⟩
    · simp [List.lookup]
    · simp [List.lookup]

theorem booleanArraySet_nine :
    booleanArraySet false [true, false, false, true, false, false, false, false, true] =
      [9, 9, 1] := by
  have hpack : packLoop [true, false, false, true, false, false, false, false, true] 0 0 =
      [9, 1] := by
    rw [packLoop_zero _ (by simp)]
    rw [show List.take 8 [true, false, false, true, false, false, false, false, true] =
      [true, false, false, true, false, false, false, false] from rfl]
    rw [show List.drop 8 [true, false, false, true, false, false, false, false, true] =
      [true] from rfl]
    rw [packLoop_zero _ (by simp)]
    rw [show List.take 8 [true] = [true] from rfl,
      show List.drop 8 [true] = ([] : List Bool) from rfl]
    rw [packLoop_nil, if_neg (show ¬ (0 : Nat) < 0 by norm_num)]
    rfl
  unfold booleanArraySet
  rw [hpack]
  rw [show ((List.length [true, false, false, true, false, false, false, false, true]
    : Nat) : Int) = ((9 : Nat) : Int) from rfl]
  rw [varintSet_digits false 9 (by norm_num)]
  rw [if_neg (by norm_num)]
  rw [varintDigits_unfold 9 (by norm_num), if_pos (by norm_num)]
  rfl

/-- C1 (counterexample): the claim fails at v = 2^31: the varint encoder,
running on JS 32-bit signed bitwise operators, writes a single byte (0x80,
with the continuation bit set) instead of getByteLength's 5 bytes, and
decoding the encoded bytes runs off the end of the stream instead of
returning 2^31. -/
theorem varint_claim_counterexample :
    (varintSet false ((2 : Int) ^ 31)).length = 1 ∧
    varintGetByteLength (2 ^ 31) = 5 ∧
    varintGet (varintSet false ((2 : Int) ^ 31)) = none := by
  have hset : varintSet false ((2 : Int) ^ 31) = [128] := by
    rw [show ((2 : Int) ^ 31) = (2147483648 : Int) by norm_num]
    exact varintSet_two_pow31
  refine ⟨by rw [hset]; rfl, ?_, by rw [hset]; decide⟩
  unfold varintGetByteLength
  rw [if_neg (by positivity)]
  rw [show Nat.log2 (2 ^ 31) = 31 from log2_eq_of (le_refl _) (by norm_num)]
  decide

/-- C1 (amended): for every non-negative integer v up to 2^31 − 1, decoding
the bytes produced by the varint encoder yields v again (leaving trailing
input untouched), and the number of bytes written equals getByteLength(v). -/
theorem varint_roundtrip_below_two_pow_31 (little : Bool) (v : Nat)
    (hv : v < 2 ^ 31) (rest : List Nat) :
    varintGet (varintSet little (v : Int) ++ rest) = some ((v : Int), rest) ∧
    (varintSet little (v : Int)).length = varintGetByteLength v :=
  varint_roundtrip_aux little v (by omega) rest

theorem varint_roundtrip_below_two_pow_31_witness :
    varintGet (varintSet false ((300 : Nat) : Int) ++ [7]) = some (((300 : Nat) : Int), [7]) ∧
    (varintSet false ((300 : Nat) : Int)).length = varintGetByteLength 300 :=
  varint_roundtrip_below_two_pow_31 false 300 (by norm_num) [7]

/-- C2 (code bug, evaluated at the failing input): the earlier revision's
ArrayCodec reports getByteLength 0 for an empty array value but its set
writes the 4-byte uint32 count prefix, so Definition.stringify, which
allocates exactly getByteLength bytes, overruns the buffer on an empty
array. -/
theorem p0_arrayCodec_empty_mismatch_eval :
    p0ArrayGetByteLength .uint8 (.arr []) = 0 ∧
    p0ArraySet false .uint8 (.arr []) = [0, 0, 0, 0] ∧
    (p0ArraySet false .uint8 (.arr [])).length = 4 :=
  ⟨rfl, rfl, rfl⟩

/-- C3 (code bug, evaluated at the failing input): the current revision's
isValidType accepts the `_codecTypes` key "float", so Field construction
with type "float" succeeds, but `_codecs["float"]` is undefined, so the
constructed Field binds no codec and every later encode/decode through it
fails at run time. -/
theorem field_float_type_binds_no_codec :
    isValidType "float" = true ∧
    codecsTable "float" = none ∧
    fieldConstruct ⟨"x", "float", none⟩ = .ok ⟨"x", none⟩ :=
  ⟨rfl, rfl, rfl⟩

/-- C4: Schema.define assigns sequential ids starting at 1 and registers
the Definition under both the name and the id; on the ping/pong example
schema, stringify of "pong" with n = 5 yields the id-prefixed bytes [2, 5],
parse returns the key "pong" with the decoded data, parsing an unregistered
id (3) errors, and stringify of an unregistered name errors. -/
theorem schema_dispatch_correct :
    (∀ (s : P0Schema) (key : String) (fields : List FieldSpec) (s2 : P0Schema)
      (d : P0Definition), p0Define s key fields = .ok (s2, d) →
        d.id = some s.nextDefinitionId ∧ s2.nextDefinitionId = s.nextDefinitionId + 1 ∧
        s2.definitions.lookup key = some d ∧
        s2.definitionsById.lookup s.nextDefinitionId = some d) ∧
    (match demoSchema with
     | some s =>
        s.nextDefinitionId = 3 ∧
        p0Stringify s "pong" [("n", .num 5)] = .ok [2, 5] ∧
        p0Parse s [2, 5] = .ok (some "pong", [("n", .num 5)]) ∧
        (p0Parse s [3]).isOk = false ∧
        (p0Stringify s "nada" []).isOk = false
     | none => False) :=
  ⟨p0Define_ok, ⟨rfl, rfl, rfl, rfl, rfl⟩⟩

theorem schema_dispatch_correct_witness :
    ({ fields := [], id := some 1, key := some "ping" } : P0Definition).id = some 1 ∧
    ({ definitions := [("ping", { fields := [], id := some 1, key := some "ping" })],
       definitionsById := [(1, { fields := [], id := some 1, key := some "ping" })],
       idType := "uint8", nextDefinitionId := 2 } : P0Schema).nextDefinitionId = 1 + 1 ∧
    ({ definitions := [("ping", { fields := [], id := some 1, key := some "ping" })],
       definitionsById := [(1, { fields := [], id := some 1, key := some "ping" })],
       idType := "uint8", nextDefinitionId := 2 } : P0Schema).definitions.lookup "ping" =
      some { fields := [], id := some 1, key := some "ping" } ∧
    ({ definitions := [("ping", { fields := [], id := some 1, key := some "ping" })],
       definitionsById := [(1, { fields := [], id := some 1, key := some "ping" })],
       idType := "uint8", nextDefinitionId := 2 } : P0Schema).definitionsById.lookup 1 =
      some { fields := [], id := some 1, key := some "ping" } :=
  schema_dispatch_correct.1 {} "ping" [] _ _ rfl

/-- C5: the integer codecs clamp out-of-range values to [minValue,
maxValue] before storing: every encode equals the encode of the clamped
value, a signed 8-bit encode of 200 equals the encode of 127, and an
unsigned 8-bit encode of -5 equals the encode of 0 (for either byte
order). -/
theorem integer_encode_clamps :
    (∀ (w : Nat) (s little : Bool) (v : Int),
      intSet w s little v =
        intSet w s little (clampInt (intMinValue w s) (intMaxValue w s) v)) ∧
    (∀ little, intSet 1 true little 200 = intSet 1 true little 127) ∧
    (∀ little, intSet 1 false little (-5) = intSet 1 false little 0) := by
  refine ⟨?_, ?_, ?_⟩
  · intro w s little v
    simp only [intSet]
    rw [clampInt_idem v (intMinValue_le_intMaxValue w s)]
  · intro little
    cases little <;> decide
  · intro little
    cases little <;> decide

/-- C6: varint getByteLength is max(1, ceil(bitsNeeded / 7)) where
bitsNeeded is the highest set-bit position plus one (characterized by
2^n ≤ v < 2^(n+1)), the value 0 reports exactly 1 byte, and the listed
boundary values evaluate as claimed. -/
theorem varint_getByteLength_formula :
    varintGetByteLength 0 = 1 ∧
    (∀ v n : Nat, 2 ^ n ≤ v → v < 2 ^ (n + 1) →
      varintGetByteLength v = max 1 ((n + 1 + 6) / 7)) ∧
    varintGetByteLength 127 = 1 ∧ varintGetByteLength 128 = 2 ∧
    varintGetByteLength 16383 = 2 ∧ varintGetByteLength 16384 = 3 := by
  have hval : ∀ v n : Nat, 2 ^ n ≤ v → v < 2 ^ (n + 1) →
      varintGetByteLength v = max 1 ((n + 1 + 6) / 7) := by
    intro v n h1 h2
    have hne : v ≠ 0 := by
      have hp : (1 : Nat) ≤ 2 ^ n := Nat.one_le_two_pow
      omega
    unfold varintGetByteLength
    rw [if_neg hne, log2_eq_of h1 h2, Nat.max_comm]
  refine ⟨rfl, hval, ?_, ?_, ?_, ?_⟩
  · rw [hval 127 6 (by norm_num) (by norm_num)]
    decide
  · rw [hval 128 7 (by norm_num) (by norm_num)]
    decide
  · rw [hval 16383 13 (by norm_num) (by norm_num)]
    decide
  · rw [hval 16384 14 (by norm_num) (by norm_num)]
    decide

theorem varint_getByteLength_formula_witness :
    varintGetByteLength 300 = max 1 ((8 + 1 + 6) / 7) :=
  varint_getByteLength_formula.2.1 300 8 (by norm_num) (by norm_num)

theorem p0StringSet_length (little : Bool) (cps : List Nat) :
    (p0StringSet little (.str cps)).length = 4 + (utf8Bytes cps).length := by
  have hmap : ∀ l : List Nat,
      ((l.map (fun (b : Nat) => uint8SetByte little (b : Int))).flatten).length = l.length := by
    intro l
    induction l with
    | nil => rfl
    | cons a t ih =>
      simp only [List.map_cons, List.flatten_cons, List.length_append, List.length_cons, ih]
      show (intSet 1 false little (a : Int)).length + t.length = t.length + 1
      rw [intSet_length]
      omega
  simp only [p0StringSet]
  by_cases h : cps = []
  · subst h
    rw [if_pos rfl, intSet_length]
    rfl
  · rw [if_neg h, List.length_append, intSet_length, hmap]

/-- C7 (counterexample): the claim fails on the earlier revision's
StringCodec, which one of its cited sources names: that codec writes the
empty or absent string as a fixed 4-byte uint32 zero count prefix, four
zero bytes, not a single zero-length-indicator byte. -/
theorem string_claim_counterexample :
    p0StringSet false (.str []) = [0, 0, 0, 0] ∧
    (p0StringSet false (.str [])).length ≠ 1 ∧
    p0StringSet false (JSValue.undef) = [0, 0, 0, 0] :=
  ⟨rfl, by decide, rfl⟩

/-- C7 (amended): the current revision's string codec encodes the empty
string and the absent value as the single byte 0 with no data bytes, and
its getByteLength is the varint length of the UTF-8 byte count plus that
byte count; the earlier revision's string codec instead writes a 4-byte
uint32 count prefix (four zero bytes for the empty or absent value)
followed by the UTF-8 bytes, with getByteLength 4 plus the UTF-8 byte
count.  In both revisions the byte count is the sum of the per-code-point
UTF-8 byte lengths: one byte for code points below 0x80 and at least two
bytes for any higher code point (so multi-byte code points count by bytes
on the wire, not by characters). -/
theorem string_codec_utf8 :
    (∀ little, stringCodecSet little (.str []) = [0]) ∧
    (∀ little, stringCodecSet little .undef = [0]) ∧
    (∀ cps, stringCodecGetByteLength (.str cps) =
      varintGetByteLength (utf8Bytes cps).length + (utf8Bytes cps).length) ∧
    (∀ cps, (utf8Bytes cps).length =
      (cps.map (fun c => (utf8EncodeChar c).length)).sum) ∧
    (∀ c, c < 128 → (utf8EncodeChar c).length = 1) ∧
    (∀ c, 128 ≤ c → 2 ≤ (utf8EncodeChar c).length) ∧
    (∀ little, p0StringSet little (.str []) = List.replicate 4 0) ∧
    (∀ little, p0StringSet little (JSValue.undef) = List.replicate 4 0) ∧
    (∀ little cps, (p0StringSet little (.str cps)).length =
      4 + (utf8Bytes cps).length) := by
  refine ⟨?_, ?_, ?_, utf8Len_eq_sum, fun c h => utf8EncodeChar_length_one h,
    fun c h => utf8EncodeChar_length_ge_two h,
    fun little => by cases little <;> rfl,
    fun little => by cases little <;> rfl,
    fun little cps => p0StringSet_length little cps⟩
  · intro little
    simp only [stringCodecSet, if_pos rfl]
    exact varintSet_zero little
  · intro little
    simp only [stringCodecSet]
    exact varintSet_zero little
  · intro cps
    by_cases h : cps = []
    · subst h
      simp only [stringCodecGetByteLength, if_pos rfl]
      rfl
    · simp only [stringCodecGetByteLength, if_neg h]

theorem string_codec_utf8_witness :
    (utf8EncodeChar 65).length = 1 ∧ 2 ≤ (utf8EncodeChar 9731).length :=
  ⟨string_codec_utf8.2.2.2.2.1 65 (by norm_num),
   string_codec_utf8.2.2.2.2.2.1 9731 (by norm_num)⟩

/-- C8 (counterexample): the claim fails at a list of 2^31 booleans: the
varint count prefix breaks at 2^31 (see C1), so decoding the encoded
boolean array returns 0 booleans instead of 2^31. -/
theorem booleanArray_claim_counterexample :
    (booleanArrayGet (booleanArraySet false (List.replicate (2 ^ 31) false))).map
      (fun p => p.1.length) = some 0 ∧
    (List.replicate ((2 : Nat) ^ 31) false).length = 2 ^ 31 := by
  constructor
  · rw [booleanArraySet_replicate_31]
    rw [show ((2 : Nat) ^ 28) = 2 ^ 28 - 1 + 1 from by norm_num, List.replicate_succ]
    rw [booleanArrayGet_cont_zero]
    rw [show Option.map (fun p : List Bool × List Nat => p.1.length)
      (some ([], List.replicate (2 ^ 28 - 1) 0)) =
      some (([] : List Bool).length) from Option.map_some' _ _]
    rw [List.length_nil]
  · rw [List.length_replicate]

/-- C8 (amended): for every list of fewer than 2^31 booleans, the boolean
array codec writes the varint count followed by exactly ceil(count/8)
bytes of LSB-first bit-packed flags, decoding returns exactly the original
booleans in order (discarding padding bits), and encoding the example
9-boolean list produces a 2-byte bit region after the count byte. -/
theorem booleanArray_roundtrip_amended (little : Bool) (l : List Bool)
    (h : l.length < 2 ^ 31) (rest : List Nat) :
    booleanArraySet little l = varintSet little (l.length : Int) ++ packLoop l 0 0 ∧
    (packLoop l 0 0).length = (l.length + 7) / 8 ∧
    booleanArrayGet (booleanArraySet little l ++ rest) = some (l, rest) ∧
    booleanArraySet false [true, false, false, true, false, false, false, false, true] =
      [9, 9, 1] :=
  ⟨rfl, packLoop_length l, booleanArray_roundtrip_aux little l (by omega) rest,
    booleanArraySet_nine⟩

theorem booleanArray_roundtrip_amended_witness :
    booleanArrayGet (booleanArraySet false [true, true, false] ++ [5]) =
      some ([true, true, false], [5]) :=
  (booleanArray_roundtrip_amended false [true, true, false] (by norm_num) [5]).2.2.1

/-- C9: any cursor read or write whose offset plus access width exceeds
the buffer capacity fails with an out-of-range error (none) rather than
clamping or returning partial data; in particular reading a 4-byte integer
from a 3-byte cursor fails. -/
theorem cursor_out_of_range_fails :
    (∀ (sv : StreamView) (w : Nat), sv.data.length < sv.byteOffset + w →
      fixedLengthGet w sv = none) ∧
    (∀ (sv : StreamView) (bytes : List Nat),
      sv.data.length < sv.byteOffset + bytes.length → fixedLengthSet sv bytes = none) ∧
    (∀ s little, integerCodecGetSV 4 s little ⟨[1, 2, 3], 0⟩ = none) := by
  refine ⟨?_, ?_, ?_⟩
  · intro sv w h
    unfold fixedLengthGet dataViewGetBytes
    rw [if_neg (by omega)]
  · intro sv bytes h
    unfold fixedLengthSet dataViewSetBytes
    rw [if_neg (by omega)]
  · intro s little
    rfl

theorem cursor_out_of_range_fails_witness :
    fixedLengthGet 4 ⟨[1, 2, 3], 0⟩ = none ∧
    fixedLengthSet ⟨[1, 2], 0⟩ [5, 5, 5] = none :=
  ⟨cursor_out_of_range_fails.1 ⟨[1, 2, 3], 0⟩ 4 (by norm_num),
   cursor_out_of_range_fails.2.1 ⟨[1, 2], 0⟩ [5, 5, 5] (by norm_num)⟩

/-- C10: for every integer codec width and signedness, decoding the bytes
produced by encoding v yields exactly clamp(v, minValue, maxValue);
consequently decode-after-encode is the identity exactly on in-range
values, and every decoded value is itself in range. -/
theorem integer_roundtrip_clamp (w : Nat) (hw : 0 < w) (s little : Bool) (v : Int)
    (rest : List Nat) :
    intGet w s little (intSet w s little v ++ rest) =
      some (clampInt (intMinValue w s) (intMaxValue w s) v, rest) ∧
    (clampInt (intMinValue w s) (intMaxValue w s) v = v ↔
      intMinValue w s ≤ v ∧ v ≤ intMaxValue w s) ∧
    intMinValue w s ≤ clampInt (intMinValue w s) (intMaxValue w s) v ∧
    clampInt (intMinValue w s) (intMaxValue w s) v ≤ intMaxValue w s :=
  ⟨intGet_intSet w s little v rest hw,
   clampInt_eq_self_iff v (intMinValue_le_intMaxValue w s),
   (clampInt_mem v (intMinValue_le_intMaxValue w s)).1,
   (clampInt_mem v (intMinValue_le_intMaxValue w s)).2⟩

theorem integer_roundtrip_clamp_witness :
    intGet 1 true false (intSet 1 true false 200 ++ []) =
      some (clampInt (intMinValue 1 true) (intMaxValue 1 true) 200, []) ∧
    (clampInt (intMinValue 1 true) (intMaxValue 1 true) 200 = 200 ↔
      intMinValue 1 true ≤ 200 ∧ (200 : Int) ≤ intMaxValue 1 true) ∧
    intMinValue 1 true ≤ clampInt (intMinValue 1 true) (intMaxValue 1 true) 200 ∧
    clampInt (intMinValue 1 true) (intMaxValue 1 true) 200 ≤ intMaxValue 1 true :=
  integer_roundtrip_clamp 1 (by norm_num) true false 200 []

end Jettison
